import Mathlib

/-!
Verification of the image encryption tool (`src/pixel.py`).

The program operates on images as 2D grids of 8-bit samples.  We embed:

* `encrypt_pixels` / `decrypt_pixels` — XOR-with-key composed with a vertical
  flip (`np.flipud` reverses the row order; `^` is elementwise XOR).
* `encrypt_fourier` / `decrypt_fourier` — 2D discrete Fourier transform with
  the complex spectrum persisted separately, natural-log magnitude
  visualisation, and inverse transform with uint8 cast.  Floating point
  arithmetic is modelled over `ℝ`/`ℂ` exactly; the uint8 cast
  (`astype(np.uint8)` / `np.uint8(...)`) truncates toward zero and wraps
  modulo 256.
* `apply_laplacian` — the 3×3 Laplacian stencil used by `cv2.Laplacian`
  with `ksize=1` and the default `BORDER_REFLECT_101` border.
* `get_int_input`, `load_image` and the relevant `main` branches — modelled
  over explicit lists/options standing for the console and filesystem
  interactions.
-/

namespace PixelTool

/-- An image: a list of rows of (nonnegative integer) samples, as produced by
`np.array` on an 8-bit image.  `np.flipud` acts on the row list only, XOR acts
on every sample, so a 2D grid captures the behaviour (a 3D multi-channel array
behaves identically with "sample" read as "channel value"). -/
abbrev Img := List (List Nat)

/-- `np.flipud`: reverse the order of the rows. -/
def flipud (x : Img) : Img := x.reverse

/-- `arr ^ key`: elementwise XOR of every sample with the key. -/
def xorImage (x : Img) (k : Nat) : Img :=
  x.map (fun r => r.map (fun v => v ^^^ k))

/-- `encrypt_pixels(img_array, key)` from `src/pixel.py`:
`np.flipud(img_array) ^ key`. -/
def encrypt_pixels (x : Img) (k : Nat) : Img := xorImage (flipud x) k

/-- `decrypt_pixels(img_array, key)` from `src/pixel.py`:
`np.flipud(img_array ^ key)`. -/
def decrypt_pixels (x : Img) (k : Nat) : Img := flipud (xorImage x k)

lemma xorImage_xorImage (x : Img) (k : Nat) : xorImage (xorImage x k) k = x := by
  simp [xorImage, List.map_map, Function.comp_def, Nat.xor_assoc]

lemma xorImage_reverse (x : Img) (k : Nat) :
    xorImage x.reverse k = (xorImage x k).reverse := by
  unfold xorImage
  exact List.map_reverse _ _

end PixelTool

namespace PixelTool

/-- `get_int_input(prompt, min_val, max_val)` from `src/pixel.py`, with the
console modelled as a list of already-parsed entries: `none` stands for a line
on which `int(...)` raises `ValueError`, `some v` for a line parsing to the
integer `v`.  The loop keeps consuming entries until one parses and lies in
`[lo, hi]`; if the list is exhausted it is still looping (`none`). -/
def get_int_input (lo hi : Int) : List (Option Int) → Option Int
  | [] => none
  | none :: rest => get_int_input lo hi rest
  | some v :: rest =>
      if lo ≤ v ∧ v ≤ hi then some v else get_int_input lo hi rest

lemma get_int_input_some {lo hi : Int} :
    ∀ {inputs : List (Option Int)} {r : Int},
      get_int_input lo hi inputs = some r → lo ≤ r ∧ r ≤ hi := by
  intro inputs
  induction inputs with
  | nil => intro r h; simp [get_int_input] at h
  | cons i rest ih =>
    intro r h
    cases i with
    | none => exact ih h
    | some v =>
      rw [get_int_input] at h
      split at h
      · cases h
        assumption
      · exact ih h

/-- `load_image(path, as_gray)` from `src/pixel.py`.  The two library readers
are modelled as parameters: `cvRead` is what `cv2.imread` returns (`none` when
the path cannot be read — `cv2.imread` signals failure by returning `None`,
it does not raise), `pilRead` is what `PIL.Image.open` produces (`none` when
it raises, which the `except` branch turns into `(None, None)`). -/
def load_image (asGray : Bool) (cvRead : Option Img)
    (pilRead : Option (Img × String)) : Option Img × Option String :=
  if asGray then (cvRead, some "L")
  else
    match pilRead with
    | some p => (some p.1, some p.2)
    | none => (none, none)

/-- The guard `if img_array is None: return` used by every branch of `main`:
it inspects only the array component of the pair returned by `load_image`. -/
def mainAbortsLoad (r : Option Img × Option String) : Bool := r.1.isNone

/-- A Python heap of numpy arrays: buffers indexed by position; `np`
operations never write into an existing buffer here, they only read and
append freshly allocated results. -/
abbrev Store := List Img

/-- Calling `encrypt_pixels` on the array stored at index `i`: the result is a
freshly allocated array appended to the store; the call returns the new
store and the index of the result. -/
def encrypt_pixels_call (st : Store) (i k : Nat) : Store × Nat :=
  (st ++ [encrypt_pixels (st.getD i []) k], st.length)

/-- Calling `decrypt_pixels` on the array stored at index `i`. -/
def decrypt_pixels_call (st : Store) (i k : Nat) : Store × Nat :=
  (st ++ [decrypt_pixels (st.getD i []) k], st.length)

lemma getD_append_lt (l l' : List Img) (j : Nat) (hj : j < l.length) :
    (l ++ l').getD j [] = l.getD j [] := by
  simp [List.getD, List.get?_eq_getElem?, List.getElem?_append, hj]

lemma getD_append_self (l : List Img) (a : Img) :
    (l ++ [a]).getD l.length [] = a := by
  simp [List.getD, List.get?_eq_getElem?, List.getElem?_append]

/-- `width` of an image: the length of its first row (numpy arrays are
rectangular, so this is the number of columns). -/
def width (x : Img) : Nat := (x.headD []).length

/-- OpenCV `borderInterpolate` with `BORDER_REFLECT_101` (the default border
of `cv2.Laplacian`), for the offsets `|d| ≤ 1` reached by the 3×3 stencil:
in-range indices are kept, a length-1 axis always maps to 0, and out-of-range
indices reflect about the edge pixel (`-1 ↦ 1`, `n ↦ n-2`). -/
def refl101 (n : Nat) (i : Int) : Nat :=
  if 0 ≤ i ∧ i < (n : Int) then i.toNat
  else if n = 1 then 0
  else if i < 0 then (-i).toNat
  else (2 * (n : Int) - 2 - i).toNat

/-- Sample of `x` at (possibly out-of-range) indices `i, j`, after border
reflection. -/
def pixAt (x : Img) (i j : Int) : Int :=
  ((x.getD (refl101 x.length i) []).getD (refl101 (width x) j) 0 : Nat)

/-- The Laplacian stencil `cv2.Laplacian(..., cv2.CV_64F)` applies with its
default aperture: `x[i-1,j] + x[i+1,j] + x[i,j-1] + x[i,j+1] - 4*x[i,j]`,
exact in `CV_64F` for 8-bit inputs. -/
def lapAt (x : Img) (i j : Nat) : Int :=
  pixAt x ((i : Int) - 1) (j : Int) + pixAt x ((i : Int) + 1) (j : Int) +
    pixAt x (i : Int) ((j : Int) - 1) + pixAt x (i : Int) ((j : Int) + 1) -
    4 * pixAt x (i : Int) (j : Int)

/-- `apply_laplacian(img_array)` from `src/pixel.py`: the Laplacian, then
`np.absolute`, then `np.uint8` (truncation of the exact integer modulo 256). -/
def apply_laplacian (x : Img) : Img :=
  (List.range x.length).map (fun i =>
    (List.range (width x)).map (fun j => (lapAt x i j).natAbs % 256))

/-- Truncation toward zero, as the C-style cast behind `astype(np.uint8)` and
`np.uint8(...)` performs on a float value before the 8-bit wrap. -/
noncomputable def f64toInt (r : ℝ) : Int := if r < 0 then -⌊-r⌋ else ⌊r⌋

/-- `astype(np.uint8)` / `np.uint8(...)`: truncate toward zero, wrap mod 256. -/
noncomputable def u8cast (r : ℝ) : Nat := (f64toInt r % 256).toNat

/-- Modelled from the spec: the spec's "clip/cast to 8-bit unsigned range" —
saturate into `[0,255]`, then cast.  This is *not* what the source does; it
exists only to compare the spec's described magnitude image with the code. -/
noncomputable def u8clip (r : ℝ) : Nat := (f64toInt (max 0 (min r 255))).toNat

/-- A grayscale `m × n` image viewed as a complex-valued array, as
`np.fft.fft2` promotes its uint8 input. -/
def natImg (m n : Nat) (x : ZMod m → ZMod n → Nat) : ZMod m → ZMod n → ℂ :=
  fun j k => (x j k : ℂ)

/-- `np.fft.fft2`: the 2D discrete Fourier transform
`F[a,b] = Σ_{i,j} z[i,j]·exp(-2πi(ia/m + jb/n))`, realised as the 1D
transform of every row followed by the 1D transform of every column
(`ZMod.dft Φ k = Σ_j exp(-2πi·jk/N)·Φ j`). -/
noncomputable def fft2 (m n : Nat) [NeZero m] [NeZero n]
    (z : ZMod m → ZMod n → ℂ) : ZMod m → ZMod n → ℂ :=
  fun a b => ZMod.dft (fun i => ZMod.dft (z i) b) a

/-- `np.fft.ifft2`: the inverse 2D transform
`z[j,k] = (mn)⁻¹ Σ_{a,b} y[a,b]·exp(+2πi(aj/m + bk/n))`, realised as the
inverse 1D transform along columns and then along rows. -/
noncomputable def ifft2 (m n : Nat) [NeZero m] [NeZero n]
    (y : ZMod m → ZMod n → ℂ) : ZMod m → ZMod n → ℂ :=
  fun j k => ZMod.dft.symm (fun b => ZMod.dft.symm (fun i => y i b) j) k

/-- `np.fft.fftshift` on a 2D array: roll each axis by half its length, so the
zero-frequency entry moves to the centre (`shifted[a,b] = y[a - m/2, b - n/2]`
with wrap-around indices). -/
def fftshift2 (m n : Nat) (y : ZMod m → ZMod n → ℂ) : ZMod m → ZMod n → ℂ :=
  fun a b => y (a - ((m / 2 : Nat) : ZMod m)) (b - ((n / 2 : Nat) : ZMod n))

/-- `encrypt_fourier(img_array, spectrum_file)` from `src/pixel.py`: the first
component is the complex spectrum `f = np.fft.fft2(img_array)` as persisted by
`np.save`; the second is the returned magnitude image
`(20 * np.log(np.abs(np.fft.fftshift(f)) + 1)).astype(np.uint8)` —
natural logarithm and wrapping uint8 cast. -/
noncomputable def encrypt_fourier (m n : Nat) [NeZero m] [NeZero n]
    (x : ZMod m → ZMod n → Nat) :
    (ZMod m → ZMod n → ℂ) × (ZMod m → ZMod n → Nat) :=
  (fft2 m n (natImg m n x),
    fun a b =>
      u8cast (20 * Real.log (Complex.abs (fftshift2 m n (fft2 m n (natImg m n x)) a b) + 1)))

/-- Modelled from the spec: the magnitude image the spec describes,
`20 * log10(|fftshift(F)| + 1)` clipped (saturated) into `[0,255]`.  Declared
only to compare against the source's `encrypt_fourier`. -/
noncomputable def fourierMagSpec (m n : Nat) [NeZero m] [NeZero n]
    (x : ZMod m → ZMod n → Nat) : ZMod m → ZMod n → Nat :=
  fun a b =>
    u8clip (20 * Real.logb 10 (Complex.abs (fftshift2 m n (fft2 m n (natImg m n x)) a b) + 1))

/-- `decrypt_fourier(spectrum_file)` from `src/pixel.py`: `np.load` is
modelled by the `loaded` parameter (`none` when the file is missing, corrupt
or otherwise fails to load as a 2D complex array — the `except` branch);
on success the inverse FFT, `np.abs` and `np.uint8` are applied. -/
noncomputable def decrypt_fourier (m n : Nat) [NeZero m] [NeZero n]
    (loaded : Option (ZMod m → ZMod n → ℂ)) : Option (ZMod m → ZMod n → Nat) :=
  match loaded with
  | none => none
  | some f => some (fun j k => u8cast (Complex.abs (ifft2 m n f j k)))

/-- The `'d'` branch of `main`'s Fourier path: `save_image` is invoked exactly
when `decrypt_fourier` returned a non-`None` result; the returned list holds
the arrays passed to `save_image`. -/
noncomputable def fourierDecryptBranch (m n : Nat) [NeZero m] [NeZero n]
    (loaded : Option (ZMod m → ZMod n → ℂ)) : List (ZMod m → ZMod n → Nat) :=
  match decrypt_fourier m n loaded with
  | none => []
  | some r => [r]

instance : NeZero (65793 : Nat) := ⟨by norm_num⟩

lemma u8cast_of_nonneg (r : ℝ) (h : 0 ≤ r) : u8cast r = (⌊r⌋ % 256).toNat := by
  simp [u8cast, f64toInt, not_lt.mpr h]

lemma dft_zmod_one (Φ : ZMod 1 → ℂ) (k : ZMod 1) : ZMod.dft Φ k = Φ 0 := by
  rw [ZMod.dft_apply, Finset.univ_unique, Finset.sum_singleton]
  have h1 : -((default : ZMod 1) * k) = 0 := Subsingleton.elim _ _
  have h2 : (default : ZMod 1) = 0 := Subsingleton.elim _ _
  rw [h1, h2, AddChar.map_zero_eq_one, one_smul]

lemma fft2_one_one (z : ZMod 1 → ZMod 1 → ℂ) (a b : ZMod 1) : fft2 1 1 z a b = z 0 0 := by
  unfold fft2
  rw [dft_zmod_one, dft_zmod_one]

lemma log_two_pos_aux : (0 : ℝ) < Real.log 2 := by
  have := Real.log_two_gt_d9
  linarith

lemma log_ten_gt_two : (2 : ℝ) < Real.log 10 := by
  rw [Real.lt_log_iff_exp_lt (by norm_num : (0 : ℝ) < 10)]
  have h1 := Real.exp_one_lt_d9
  have h2 : Real.exp 2 = Real.exp 1 * Real.exp 1 := by
    rw [← Real.exp_add]
    norm_num
  nlinarith [Real.exp_pos 1]

lemma floor_160_log_two : ⌊(160 : ℝ) * Real.log 2⌋ = 110 := by
  have h1 := Real.log_two_gt_d9
  have h2 := Real.log_two_lt_d9
  rw [Int.floor_eq_iff]
  constructor
  · push_cast
    nlinarith
  · push_cast
    nlinarith

lemma floor_480_log_two : ⌊(480 : ℝ) * Real.log 2⌋ = 332 := by
  have h1 := Real.log_two_gt_d9
  have h2 := Real.log_two_lt_d9
  rw [Int.floor_eq_iff]
  constructor
  · push_cast
    nlinarith
  · push_cast
    nlinarith

lemma abs_fftshift_255 :
    Complex.abs (fftshift2 1 1 (fft2 1 1 (natImg 1 1 (fun _ _ => 255))) 0 0) = 255 := by
  unfold fftshift2
  rw [fft2_one_one]
  simp [natImg]

lemma enc_fourier_mag_255 : (encrypt_fourier 1 1 (fun _ _ => 255)).2 0 0 = 110 := by
  show u8cast (20 * Real.log
      (Complex.abs (fftshift2 1 1 (fft2 1 1 (natImg 1 1 (fun _ _ => 255))) 0 0) + 1)) = 110
  rw [abs_fftshift_255]
  have h256 : (255 : ℝ) + 1 = 2 ^ 8 := by norm_num
  rw [h256, Real.log_pow]
  have h20 : (20 : ℝ) * ((8 : ℕ) * Real.log 2) = 160 * Real.log 2 := by
    push_cast
    ring
  rw [h20, u8cast_of_nonneg _ (by nlinarith [log_two_pos_aux]), floor_160_log_two]
  rfl

lemma spec_fourier_mag_255_lt : fourierMagSpec 1 1 (fun _ _ => 255) 0 0 < 110 := by
  show u8clip (20 * Real.logb 10
      (Complex.abs (fftshift2 1 1 (fft2 1 1 (natImg 1 1 (fun _ _ => 255))) 0 0) + 1)) < 110
  rw [abs_fftshift_255]
  have h256 : (255 : ℝ) + 1 = 2 ^ 8 := by norm_num
  rw [h256]
  set v : ℝ := 20 * Real.logb 10 (2 ^ 8) with hv
  have hlog : v = 160 * Real.log 2 / Real.log 10 := by
    rw [hv, ← Real.log_div_log, Real.log_pow]
    push_cast
    ring
  have hd : (0 : ℝ) < Real.log 10 := by linarith [log_ten_gt_two]
  have hub : v < 110 := by
    rw [hlog, div_lt_iff₀ hd]
    nlinarith [Real.log_two_lt_d9, log_ten_gt_two]
  have hlb : 0 ≤ v := by
    rw [hlog]
    positivity
  unfold u8clip f64toInt
  have hmin : min v 255 = v := min_eq_left (by linarith)
  have hmax : max 0 (min v 255) = v := by
    rw [hmin]
    exact max_eq_right hlb
  rw [hmax, if_neg (not_lt.mpr hlb)]
  have hfl : ⌊v⌋ < 110 := Int.floor_lt.mpr (by exact_mod_cast hub)
  omega

lemma fft2_col_const :
    fft2 65793 1 (natImg 65793 1 (fun _ _ => 255)) 0 0 = ((16777215 : ℕ) : ℂ) := by
  unfold fft2
  have hrow : (fun i : ZMod 65793 =>
      ZMod.dft (natImg 65793 1 (fun _ _ => 255) i) (0 : ZMod 1)) = fun _ => ((255 : ℕ) : ℂ) := by
    funext i
    rw [dft_zmod_one]
    rfl
  rw [hrow, ZMod.dft_apply_zero, Finset.sum_const, Finset.card_univ, ZMod.card]
  push_cast
  norm_num

lemma enc_fourier_mag_wrap :
    (encrypt_fourier 65793 1 (fun _ _ => 255)).2 ((32896 : ℕ) : ZMod 65793) 0 = 76 := by
  show u8cast (20 * Real.log (Complex.abs (fftshift2 65793 1
      (fft2 65793 1 (natImg 65793 1 (fun _ _ => 255))) ((32896 : ℕ) : ZMod 65793) 0) + 1)) = 76
  have hshift : fftshift2 65793 1 (fft2 65793 1 (natImg 65793 1 (fun _ _ => 255)))
      ((32896 : ℕ) : ZMod 65793) 0 = fft2 65793 1 (natImg 65793 1 (fun _ _ => 255)) 0 0 := by
    unfold fftshift2
    have hdiv : (65793 / 2 : ℕ) = 32896 := by norm_num
    rw [hdiv]
    rw [sub_self]
    have hb : ((0 : ZMod 1) - ((1 / 2 : ℕ) : ZMod 1)) = 0 := Subsingleton.elim _ _
    rw [hb]
  rw [hshift, fft2_col_const, Complex.abs_natCast]
  have h2p : ((16777215 : ℕ) : ℝ) + 1 = 2 ^ 24 := by norm_num
  rw [h2p, Real.log_pow]
  have h20 : (20 : ℝ) * ((24 : ℕ) * Real.log 2) = 480 * Real.log 2 := by
    push_cast
    ring
  rw [h20, u8cast_of_nonneg _ (by nlinarith [log_two_pos_aux]), floor_480_log_two]
  rfl

lemma u8cast_natCast (v : Nat) (hv : v ≤ 255) : u8cast (v : ℝ) = v := by
  have h0 : ¬ ((v : ℝ) < 0) := not_lt.mpr (Nat.cast_nonneg v)
  have hlt : (v : Int) < 256 := by exact_mod_cast Nat.lt_succ_of_le hv
  simp [u8cast, f64toInt, h0, Int.floor_natCast,
    Int.emod_eq_of_lt (Int.natCast_nonneg v) hlt]

lemma ifft2_fft2 (m n : Nat) [NeZero m] [NeZero n] (z : ZMod m → ZMod n → ℂ) :
    ifft2 m n (fft2 m n z) = z := by
  funext j k
  show ZMod.dft.symm (fun b => ZMod.dft.symm (fun i => fft2 m n z i b) j) k = z j k
  have hinner : ∀ b, ZMod.dft.symm (fun i => fft2 m n z i b) j = ZMod.dft (z j) b := by
    intro b
    have : (fun i => fft2 m n z i b) = ZMod.dft (fun i => ZMod.dft (z i) b) := rfl
    rw [this, LinearEquiv.symm_apply_apply]
  calc ZMod.dft.symm (fun b => ZMod.dft.symm (fun i => fft2 m n z i b) j) k
      = ZMod.dft.symm (fun b => ZMod.dft (z j) b) k := by
        rw [funext hinner]
    _ = z j k := by
        have : (fun b => ZMod.dft (z j) b) = ZMod.dft (z j) := rfl
        rw [this, LinearEquiv.symm_apply_apply]

end PixelTool

namespace PixelTool

/-- C1: round trip of the pixel codec — for every image and every key in
[0,255], `decrypt_pixels (encrypt_pixels x k) k = x` exactly. -/
theorem decrypt_encrypt_pixels_roundtrip (x : Img) (k : Nat) (hk : k ≤ 255) :
    decrypt_pixels (encrypt_pixels x k) k = x := by
  unfold decrypt_pixels encrypt_pixels flipud
  rw [xorImage_xorImage, List.reverse_reverse]

/-- Witness for C1: the round trip at the concrete image `[[10,20],[30,40]]`
with key 5. -/
theorem decrypt_encrypt_pixels_roundtrip_witness :
    decrypt_pixels (encrypt_pixels [[10, 20], [30, 40]] 5) 5 = [[10, 20], [30, 40]] :=
  decrypt_encrypt_pixels_roundtrip [[10, 20], [30, 40]] 5 (by decide)

/-- C2: `encrypt_pixels` is flip-then-XOR, `decrypt_pixels` is XOR-then-flip,
and on the concrete 2×2 image `[[10,20],[30,40]]` with key 5 encryption yields
`[[27,45],[15,17]]`, which decrypts back to `[[10,20],[30,40]]`. -/
theorem pixel_codec_contract :
    (∀ x : Img, ∀ k : Nat, encrypt_pixels x k = xorImage (flipud x) k) ∧
    (∀ y : Img, ∀ k : Nat, decrypt_pixels y k = flipud (xorImage y k)) ∧
    encrypt_pixels [[10, 20], [30, 40]] 5 = [[27, 45], [15, 17]] ∧
    decrypt_pixels [[27, 45], [15, 17]] 5 = [[10, 20], [30, 40]] :=
  ⟨fun _ _ => rfl, fun _ _ => rfl, by decide, by decide⟩

/-- C3 counterexample: the claim asserts that some image and key make
`flip_vertical(x) XOR k` differ from `flip_vertical(x XOR k)`; in fact no such
pair exists — vertical flip commutes with elementwise XOR. -/
theorem flip_xor_order_never_differs :
    ¬ ∃ (x : Img) (k : Nat), k ≤ 255 ∧ xorImage (flipud x) k ≠ flipud (xorImage x k) := by
  rintro ⟨x, k, -, hne⟩
  exact hne (xorImage_reverse x k)

/-- C3 amended: flip and XOR commute, so the ordering reversal between
`encrypt_pixels` and `decrypt_pixels` is *not* required for round-trip
correctness: using the encrypt composition (flip-then-XOR) on both sides also
recovers the image. -/
theorem flip_xor_commute_same_order_roundtrip (x : Img) (k : Nat) (hk : k ≤ 255) :
    xorImage (flipud x) k = flipud (xorImage x k) ∧
    encrypt_pixels (encrypt_pixels x k) k = x := by
  refine ⟨xorImage_reverse x k, ?_⟩
  unfold encrypt_pixels flipud
  rw [← xorImage_reverse, List.reverse_reverse, xorImage_xorImage]


/-- Witness for the amended C3 at the concrete image `[[10,20],[30,40]]` with
key 5. -/
theorem flip_xor_commute_same_order_roundtrip_witness :
    xorImage (flipud [[10, 20], [30, 40]]) 5 = flipud (xorImage [[10, 20], [30, 40]] 5) ∧
    encrypt_pixels (encrypt_pixels [[10, 20], [30, 40]] 5) 5 = [[10, 20], [30, 40]] :=
  flip_xor_commute_same_order_roundtrip [[10, 20], [30, 40]] 5 (by decide)

/-- C6: dimension preservation — `encrypt_pixels`, `decrypt_pixels` and
`apply_laplacian` return an image with the same number of rows and the same
row width as their input, and every `apply_laplacian` output value lies in
[0,255].  (The two Fourier transforms preserve dimensions by construction in
this embedding: they map `ZMod m → ZMod n`-indexed arrays to
`ZMod m → ZMod n`-indexed arrays.) -/
theorem transforms_preserve_dims (x : Img) (k w : Nat) (hw : ∀ r ∈ x, r.length = w) :
    (encrypt_pixels x k).length = x.length ∧
    (∀ r ∈ encrypt_pixels x k, r.length = w) ∧
    (decrypt_pixels x k).length = x.length ∧
    (∀ r ∈ decrypt_pixels x k, r.length = w) ∧
    (apply_laplacian x).length = x.length ∧
    (∀ r ∈ apply_laplacian x, r.length = w) ∧
    (∀ r ∈ apply_laplacian x, ∀ v ∈ r, v ≤ 255) := by
  have hwid : ∀ i, i ∈ List.range x.length → width x = w := by
    intro i hi
    cases x with
    | nil => simp at hi
    | cons a t => exact hw a (List.mem_cons_self a t)
  refine ⟨?_, ?_, ?_, ?_, ?_, ?_, ?_⟩
  · simp [encrypt_pixels, xorImage, flipud]
  · intro r hr
    simp only [encrypt_pixels, xorImage, flipud, List.mem_map, List.mem_reverse] at hr
    obtain ⟨s, hs, rfl⟩ := hr
    simpa using hw s hs
  · simp [decrypt_pixels, xorImage, flipud]
  · intro r hr
    simp only [decrypt_pixels, xorImage, flipud, List.mem_reverse, List.mem_map] at hr
    obtain ⟨s, hs, rfl⟩ := hr
    simpa using hw s hs
  · simp [apply_laplacian]
  · intro r hr
    simp only [apply_laplacian, List.mem_map, List.mem_range] at hr
    obtain ⟨i, hi, rfl⟩ := hr
    simpa using hwid i (List.mem_range.mpr hi)
  · intro r hr v hv
    simp only [apply_laplacian, List.mem_map, List.mem_range] at hr
    obtain ⟨i, hi, rfl⟩ := hr
    simp only [List.mem_map, List.mem_range] at hv
    obtain ⟨j, hj, rfl⟩ := hv
    exact Nat.le_of_lt_succ (Nat.mod_lt _ (by norm_num))

/-- Witness for C6 at the concrete 1×1 image `[[0]]` with key 0. -/
theorem transforms_preserve_dims_witness :
    (encrypt_pixels [[0]] 0).length = ([[0]] : Img).length ∧
    (∀ r ∈ encrypt_pixels [[0]] 0, r.length = 1) ∧
    (decrypt_pixels [[0]] 0).length = ([[0]] : Img).length ∧
    (∀ r ∈ decrypt_pixels [[0]] 0, r.length = 1) ∧
    (apply_laplacian [[0]]).length = ([[0]] : Img).length ∧
    (∀ r ∈ apply_laplacian [[0]], r.length = 1) ∧
    (∀ r ∈ apply_laplacian [[0]], ∀ v ∈ r, v ≤ 255) :=
  transforms_preserve_dims [[0]] 0 1 (by decide)

/-- C7: `get_int_input` only ever returns an integer within `[lo, hi]`
(whatever the sequence of console entries), and with the default bounds
`[0,255]` the single entry `300` is rejected — the loop is still waiting for
further input, so no transform can have run with key 300. -/
theorem get_int_input_in_range (lo hi : Int) (inputs : List (Option Int)) (r : Int)
    (h : get_int_input lo hi inputs = some r) :
    (lo ≤ r ∧ r ≤ hi) ∧ get_int_input 0 255 [some 300] = none :=
  ⟨get_int_input_some h, by decide⟩

/-- Witness for C7: the entry `42` is accepted with the default bounds. -/
theorem get_int_input_in_range_witness :
    ((0 : Int) ≤ 42 ∧ (42 : Int) ≤ 255) ∧ get_int_input 0 255 [some 300] = none :=
  get_int_input_in_range 0 255 [some 42] 42 (by decide)

/-- C8: `encrypt_pixels` and `decrypt_pixels` do not mutate any stored array —
every buffer of the store is unchanged by the call — and the result is a
freshly allocated array (its index is the previous store size, outside the
existing indices), holding the computed transform of the input buffer. -/
theorem pixel_calls_no_mutation (st : Store) (i j k : Nat) (hj : j < st.length) :
    ((encrypt_pixels_call st i k).1.getD j [] = st.getD j [] ∧
      (encrypt_pixels_call st i k).2 = st.length ∧
      (encrypt_pixels_call st i k).1.getD (encrypt_pixels_call st i k).2 [] =
        encrypt_pixels (st.getD i []) k) ∧
    ((decrypt_pixels_call st i k).1.getD j [] = st.getD j [] ∧
      (decrypt_pixels_call st i k).2 = st.length ∧
      (decrypt_pixels_call st i k).1.getD (decrypt_pixels_call st i k).2 [] =
        decrypt_pixels (st.getD i []) k) :=
  ⟨⟨getD_append_lt _ _ _ hj, rfl, getD_append_self _ _⟩,
    ⟨getD_append_lt _ _ _ hj, rfl, getD_append_self _ _⟩⟩

/-- Witness for C8 on a one-buffer store holding `[[1,2]]`, with key 3. -/
theorem pixel_calls_no_mutation_witness :
    ((encrypt_pixels_call [[[1, 2]]] 0 3).1.getD 0 [] = ([[[1, 2]]] : Store).getD 0 [] ∧
      (encrypt_pixels_call [[[1, 2]]] 0 3).2 = ([[[1, 2]]] : Store).length ∧
      (encrypt_pixels_call [[[1, 2]]] 0 3).1.getD (encrypt_pixels_call [[[1, 2]]] 0 3).2 [] =
        encrypt_pixels (([[[1, 2]]] : Store).getD 0 []) 3) ∧
    ((decrypt_pixels_call [[[1, 2]]] 0 3).1.getD 0 [] = ([[[1, 2]]] : Store).getD 0 [] ∧
      (decrypt_pixels_call [[[1, 2]]] 0 3).2 = ([[[1, 2]]] : Store).length ∧
      (decrypt_pixels_call [[[1, 2]]] 0 3).1.getD (decrypt_pixels_call [[[1, 2]]] 0 3).2 [] =
        decrypt_pixels (([[[1, 2]]] : Store).getD 0 []) 3) :=
  pixel_calls_no_mutation [[[1, 2]]] 0 0 3 (by decide)

/-- C4 counterexample: the magnitude image of `encrypt_fourier` is *not*
`20·log10(|fftshift(F)|+1)` clipped to `[0,255]`: on the 1×1 image `[[255]]`
the source (`20 * np.log(...)`, natural logarithm, wrapping `astype`) yields
`⌊20·ln 256⌋ = 110`, while the spec's formula yields `⌊20·log10 256⌋ = 48`,
strictly below 110. -/
theorem fourier_magnitude_differs_from_spec :
    ¬ ((encrypt_fourier 1 1 (fun _ _ => 255)).2 = fourierMagSpec 1 1 (fun _ _ => 255)) := by
  intro h
  have h00 := congrFun (congrFun h 0) 0
  rw [enc_fourier_mag_255] at h00
  have hlt := spec_fourier_mag_255_lt
  omega

/-- C4 amended: the magnitude image equals
`20 * ln(|fftshift(F)| + 1)` — natural logarithm, not `log10` — truncated
toward zero and wrapped modulo 256, not clipped: the 1×1 image `[[255]]` gives
`⌊20·ln 256⌋ = 110`, and a 65793×1 all-255 image gives, at the centred
zero-frequency entry, `⌊20·ln 2²⁴⌋ mod 256 = 332 mod 256 = 76` (a clip would
have produced 255). -/
theorem fourier_magnitude_natural_log_wrap :
    (encrypt_fourier 1 1 (fun _ _ => 255)).2 0 0 = 110 ∧
    (encrypt_fourier 65793 1 (fun _ _ => 255)).2 ((32896 : ℕ) : ZMod 65793) 0 = 76 :=
  ⟨enc_fourier_mag_255, enc_fourier_mag_wrap⟩

/-- C5: when the spectrum file is missing, corrupt or not loadable as a 2D
complex array, `decrypt_fourier` returns `None` rather than raising, and
`main`'s decrypt branch then calls `save_image` on nothing; when loading
succeeds, something is saved. -/
theorem decrypt_fourier_load_failure (m n : Nat) [NeZero m] [NeZero n] :
    decrypt_fourier m n none = none ∧
    fourierDecryptBranch m n none = [] ∧
    (∀ f : ZMod m → ZMod n → ℂ, fourierDecryptBranch m n (some f) ≠ []) :=
  ⟨rfl, rfl, fun f h => by simp [fourierDecryptBranch, decrypt_fourier] at h⟩

/-- Witness for C5 at spectrum dimensions 1 × 1. -/
theorem decrypt_fourier_load_failure_witness :
    decrypt_fourier 1 1 none = none ∧
    fourierDecryptBranch 1 1 none = [] ∧
    (∀ f : ZMod 1 → ZMod 1 → ℂ, fourierDecryptBranch 1 1 (some f) ≠ []) :=
  decrypt_fourier_load_failure 1 1

/-- C9: Fourier round trip — decrypting the spectrum written by
`encrypt_fourier` recovers every 8-bit sample within ±1 (in this exact
real-arithmetic model of float64 the recovery is exact, so the error is 0). -/
theorem fourier_roundtrip (m n : Nat) [NeZero m] [NeZero n]
    (x : ZMod m → ZMod n → Nat) (hx : ∀ j k, x j k ≤ 255) (j : ZMod m) (k : ZMod n) :
    (decrypt_fourier m n (some (encrypt_fourier m n x).1)).isSome = true ∧
    (((decrypt_fourier m n (some (encrypt_fourier m n x).1)).getD (fun _ _ => 0) j k : Int) -
        (x j k : Int)).natAbs ≤ 1 := by
  constructor
  · rfl
  · have hrec := ifft2_fft2 m n (natImg m n x)
    simp only [decrypt_fourier, encrypt_fourier, Option.getD_some, hrec, natImg,
      Complex.abs_natCast, u8cast_natCast (x j k) (hx j k)]
    simp

/-- Witness for C9: a 1×1 image with sample value 7 survives the Fourier
round trip. -/
theorem fourier_roundtrip_witness :
    (decrypt_fourier 1 1 (some (encrypt_fourier 1 1 (fun _ _ => 7)).1)).isSome = true ∧
    (((decrypt_fourier 1 1 (some (encrypt_fourier 1 1 (fun _ _ => 7)).1)).getD
        (fun _ _ => 0) 0 0 : Int) - (((fun _ _ => 7 : ZMod 1 → ZMod 1 → Nat) 0 0 : Nat) : Int)).natAbs ≤ 1 :=
  fourier_roundtrip 1 1 (fun _ _ => 7) (fun _ _ => by norm_num) 0 0

/-- C10: `load_image` with `as_gray=True` on an unreadable path returns the
pair `(None, "L")` without raising (`cv2.imread` reports failure by returning
`None`), so the mode component is *not* `None`; `main`'s guard indeed tests
only the array component and detects the failure. -/
theorem load_image_gray_failure (pilRead : Option (Img × String)) :
    load_image true none pilRead = (none, some "L") ∧
    (load_image true none pilRead).2 ≠ none ∧
    mainAbortsLoad (load_image true none pilRead) = true :=
  ⟨rfl, by simp [load_image], rfl⟩

end PixelTool
